import Mathlib

/-!
Verification of the `sringbuf` ring buffer (src/src/lib.rs).

The Rust type `RingBuffer<T, const N: usize>` is embedded as a Lean
structure with a list of optional slots and two cursors.  The capacity
`N` (a const generic in Rust) is passed explicitly to each operation,
exactly where the Rust code mentions `N`.  `write` and `read` are direct
transcriptions of the Rust method bodies: `write` stores `Some data` at
`write_index` and advances the cursor with the same `+ 1 == N` wrap test;
`read` inspects the slot at `read_index`, and on `Some` clears the slot,
advances the cursor with the same wrap test and returns the value, while
on `None` it returns `none` and leaves the state untouched.  `read`
returns the `Option` result paired with the updated state (the Rust
method mutates `&mut self`).
-/

namespace SRingBuf

structure RingBuffer (T : Type) where
  contents : List (Option T)
  read_index : Nat
  write_index : Nat
deriving DecidableEq, Repr

/-- The state produced by a successful `RingBuffer::new()`:
`contents: [None; N], read_index: 0, write_index: 0`. -/
def RingBuffer.fresh (T : Type) (N : Nat) : RingBuffer T :=
  ⟨List.replicate N none, 0, 0⟩

/-- Rust `RingBuffer::new()`.  The Rust body runs `assert!(N > 0)` before
building the instance, so construction aborts for `N = 0`; the abort is
modelled as `none`. -/
def RingBuffer.new (T : Type) (N : Nat) : Option (RingBuffer T) :=
  if 0 < N then some (RingBuffer.fresh T N) else none

/-- Rust `RingBuffer::write`.  Stores `Some data` at `write_index`, then
either wraps the cursor to `0` (when `write_index + 1 == N`) and
returns, or increments it. -/
def RingBuffer.write {T : Type} (N : Nat) (b : RingBuffer T) (data : T) :
    RingBuffer T :=
  let contents := b.contents.set b.write_index (some data)
  if b.write_index + 1 = N then
    { contents := contents, read_index := b.read_index, write_index := 0 }
  else
    { contents := contents, read_index := b.read_index,
      write_index := b.write_index + 1 }

/-- Rust `RingBuffer::read`.  Reads the slot at `read_index`; on `Some` it
clears the slot, advances the cursor with the same `+ 1 == N` wrap test
and returns the value, on `None` it returns `none` with the state
unchanged.  The pair carries the `Option<T>` result and the mutated
state. -/
def RingBuffer.read {T : Type} (N : Nat) (b : RingBuffer T) :
    Option T × RingBuffer T :=
  let data := b.contents.getD b.read_index none
  match data with
  | some _ =>
      let contents := b.contents.set b.read_index none
      if b.read_index + 1 = N then
        (data, { contents := contents, read_index := 0,
                 write_index := b.write_index })
      else
        (data, { contents := contents, read_index := b.read_index + 1,
                 write_index := b.write_index })
  | none => (none, b)

/-- A sequence of `write` calls, left to right. -/
def writeList {T : Type} (N : Nat) (b : RingBuffer T) (vs : List T) :
    RingBuffer T :=
  vs.foldl (fun s v => RingBuffer.write N s v) b

/-- Run `k` consecutive `read` calls, collecting the returned options. -/
def readN {T : Type} (N : Nat) (b : RingBuffer T) :
    Nat → List (Option T) × RingBuffer T
  | 0 => ([], b)
  | Nat.succ k =>
      let r := RingBuffer.read N b
      let rest := readN N r.2 k
      (r.1 :: rest.1, rest.2)

/-- One API call: either `write(v)` or `read()`. -/
inductive Op (T : Type) where
  | write : T → Op T
  | read : Op T

/-- Apply one API call to a buffer state. -/
def step {T : Type} (N : Nat) (b : RingBuffer T) : Op T → RingBuffer T
  | Op.write v => RingBuffer.write N b v
  | Op.read => (RingBuffer.read N b).2

/-- Apply a sequence of API calls to a buffer state. -/
def run {T : Type} (N : Nat) (b : RingBuffer T) (ops : List (Op T)) :
    RingBuffer T :=
  ops.foldl (step N) b

/-! ### List helpers -/

theorem list_set_append_length {α : Type} (as bs : List α) (x : α) :
    (as ++ bs).set as.length x = as ++ bs.set 0 x := by
  induction as with
  | nil => rfl
  | cons a as ih => simp [List.set, ih]

theorem list_getD_append_length {α : Type} (as bs : List α) (d : α) :
    (as ++ bs).getD as.length d = bs.getD 0 d := by
  induction as with
  | nil => rfl
  | cons a as ih => simpa [List.getD] using ih

theorem list_getD_replicate {α : Type} (n i : Nat) (d : α) :
    (List.replicate n d).getD i d = d := by
  induction n generalizing i with
  | zero => rfl
  | succ n ih =>
      cases i with
      | zero => rfl
      | succ i => exact ih i

theorem list_getD_set_ne {α : Type} (l : List α) (j i : Nat) (x d : α)
    (h : i ≠ j) : (l.set j x).getD i d = l.getD i d := by
  induction l generalizing i j with
  | nil => rfl
  | cons a l ih =>
      cases j with
      | zero =>
          cases i with
          | zero => exact absurd rfl h
          | succ i => rfl
      | succ j =>
          cases i with
          | zero => rfl
          | succ i =>
              simpa [List.set, List.getD] using ih j i (fun hh => h (by omega))

/-! ### Characterization of `write` and `read` -/

theorem write_contents {T : Type} (N : Nat) (b : RingBuffer T) (v : T) :
    (RingBuffer.write N b v).contents = b.contents.set b.write_index (some v) := by
  unfold RingBuffer.write
  split <;> rfl

theorem write_read_index {T : Type} (N : Nat) (b : RingBuffer T) (v : T) :
    (RingBuffer.write N b v).read_index = b.read_index := by
  unfold RingBuffer.write
  split <;> rfl

theorem write_write_index {T : Type} (N : Nat) (b : RingBuffer T) (v : T)
    (h : b.write_index < N) :
    (RingBuffer.write N b v).write_index = (b.write_index + 1) % N := by
  by_cases hc : b.write_index + 1 = N
  · simp [RingBuffer.write, hc, Nat.mod_self]
  · have hlt : b.write_index + 1 < N := by omega
    simp [RingBuffer.write, hc, Nat.mod_eq_of_lt hlt]

/-- A single `write` into the partially-filled state reached by writing
`ws` into a fresh buffer: the new value lands at the start of the empty
suffix and the cursor advances (wrapping to `0` at `N`). -/
theorem write_fill {T : Type} (N : Nat) (ws : List T) (m ri : Nat) (v : T) :
    RingBuffer.write N ⟨ws.map some ++ List.replicate (m + 1) none, ri, ws.length⟩ v
      = ⟨(ws ++ [v]).map some ++ List.replicate m none, ri,
         if ws.length + 1 = N then 0 else ws.length + 1⟩ := by
  have hset : (ws.map some ++ List.replicate (m + 1) (none : Option T)).set
      ws.length (some v)
      = ws.map some ++ (List.replicate (m + 1) (none : Option T)).set 0 (some v) := by
    have h := list_set_append_length (ws.map some)
      (List.replicate (m + 1) (none : Option T)) (some v)
    rw [List.length_map] at h
    exact h
  by_cases hc : ws.length + 1 = N <;>
    simp [RingBuffer.write, hc, hset, List.replicate_succ, List.set,
      List.map_append, List.append_assoc]

/-- Writing `vs` after `ws` has been written into a fresh buffer. -/
theorem writeList_fill {T : Type} (N : Nat) (vs : List T) :
    ∀ (ws : List T) (ri : Nat), ws.length < N → ws.length + vs.length ≤ N →
    writeList N ⟨ws.map some ++ List.replicate (N - ws.length) none, ri, ws.length⟩ vs
      = ⟨(ws ++ vs).map some ++ List.replicate (N - (ws.length + vs.length)) none, ri,
         if ws.length + vs.length = N then 0 else ws.length + vs.length⟩ := by
  induction vs with
  | nil =>
      intro ws ri h1 h2
      have hc : ¬ (ws.length = N) := by omega
      simp [writeList, hc]
  | cons v vs ih =>
      intro ws ri h1 h2
      have hstep : writeList N
          ⟨ws.map some ++ List.replicate (N - ws.length) none, ri, ws.length⟩ (v :: vs)
          = writeList N (RingBuffer.write N
              ⟨ws.map some ++ List.replicate (N - ws.length) none, ri, ws.length⟩ v) vs := by
        rfl
      have hrep : N - ws.length = (N - (ws.length + 1)) + 1 := by omega
      rw [hstep, hrep, write_fill]
      by_cases hc : ws.length + 1 = N
      · have hvs : vs = [] := by
          have : vs.length = 0 := by simp at h2; omega
          exact List.eq_nil_of_length_eq_zero this
        subst hvs
        have hcond : ws.length + (v :: ([] : List T)).length = N := by
          simpa using hc
        simp [writeList, hc, hcond]
      · have h1' : (ws ++ [v]).length < N := by
          simp only [List.length_append, List.length_singleton]
          simp only [List.length_cons] at h2
          omega
        have h2' : (ws ++ [v]).length + vs.length ≤ N := by
          simp only [List.length_append, List.length_singleton]
          simp only [List.length_cons] at h2
          omega
        have hih := ih (ws ++ [v]) ri h1' h2'
        simp only [List.length_append, List.length_singleton] at hih
        rw [if_neg hc, hih]
        simp only [List.length_cons]
        have e1 : (ws ++ [v]) ++ vs = ws ++ v :: vs := by simp
        have e2 : ws.length + 1 + vs.length = ws.length + (vs.length + 1) := by
          omega
        rw [e1, e2]

/-- A `read` on a state whose slot at `read_index` is empty returns
`none` and leaves the state untouched. -/
theorem read_none {T : Type} (N : Nat) (b : RingBuffer T)
    (h : b.contents.getD b.read_index none = none) :
    RingBuffer.read N b = (none, b) := by
  simp only [RingBuffer.read, h]

/-- A single `read` on a state whose occupied region starts right at
`read_index`: the head value comes out, its slot is cleared, and the
cursor advances (wrapping to `0` at `N`). -/
theorem read_fill {T : Type} (N j m wi : Nat) (w : T) (ws : List T) :
    RingBuffer.read N
      ⟨List.replicate j none ++ ((w :: ws).map some ++ List.replicate m none), j, wi⟩
      = (some w,
         ⟨List.replicate (j + 1) none ++ (ws.map some ++ List.replicate m none),
          if j + 1 = N then 0 else j + 1, wi⟩) := by
  have hget : (List.replicate j (none : Option T) ++
      ((w :: ws).map some ++ List.replicate m none)).getD j none = some w := by
    have h := list_getD_append_length (List.replicate j (none : Option T))
      ((w :: ws).map some ++ List.replicate m none) none
    rw [List.length_replicate] at h
    rw [h]
    rfl
  have hset : (List.replicate j (none : Option T) ++
      ((w :: ws).map some ++ List.replicate m none)).set j none
      = List.replicate (j + 1) none ++ (ws.map some ++ List.replicate m none) := by
    have h := list_set_append_length (List.replicate j (none : Option T))
      ((w :: ws).map some ++ List.replicate m none) none
    rw [List.length_replicate] at h
    rw [h]
    simp [List.set, List.replicate_succ', List.append_assoc]
  by_cases hc : j + 1 = N
  · simp only [RingBuffer.read, hget, hset, if_pos hc]
  · simp only [RingBuffer.read, hget, hset, if_neg hc]

/-- Reading out the whole occupied region `ws` of a state reached after
writes: the values come back in order and the buffer is left fully
empty, the write cursor untouched. -/
theorem readN_fill {T : Type} (N : Nat) (ws : List T) :
    ∀ (j m wi : Nat), j + ws.length + m = N →
    readN N ⟨List.replicate j none ++ (ws.map some ++ List.replicate m none), j, wi⟩
        ws.length
      = (ws.map some,
         ⟨List.replicate N none,
          if j + ws.length = N ∧ 0 < ws.length then 0 else j + ws.length, wi⟩) := by
  induction ws with
  | nil =>
      intro j m wi hN
      have hjm : j + m = N := by simpa using hN
      have hrepl : List.replicate j (none : Option T) ++ List.replicate m none
          = List.replicate N none := by
        rw [← List.replicate_add, hjm]
      simp [readN, hrepl]
  | cons w ws ih =>
      intro j m wi hN
      simp only [List.length_cons] at hN ⊢
      by_cases hc : j + 1 = N
      · have hws : ws = [] := by
          have : ws.length = 0 := by omega
          exact List.eq_nil_of_length_eq_zero this
        have hm : m = 0 := by subst hws; simp at hN; omega
        subst hws hm
        simp only [readN, read_fill, if_pos hc]
        have hcond : j + (0 + 1) = N ∧ 0 < 0 + 1 := by
          constructor <;> omega
        simp [readN, hc, hcond, List.replicate_succ']
      · simp only [readN, read_fill, if_neg hc]
        have hih := ih (j + 1) m wi (by omega)
        rw [hih]
        simp only [List.map_cons, Prod.mk.injEq, RingBuffer.mk.injEq]
        refine ⟨trivial, trivial, ?_, trivial⟩
        split_ifs <;> omega

/-- Both cursors stay below `N` across any single API call, given they
start below `N`. -/
theorem step_bounds {T : Type} (N : Nat) (b : RingBuffer T) (op : Op T)
    (hr : b.read_index < N) (hw : b.write_index < N) :
    (step N b op).read_index < N ∧ (step N b op).write_index < N := by
  cases op with
  | write v =>
      by_cases hc : b.write_index + 1 = N
      · simp [step, RingBuffer.write, hc]
        omega
      · simp [step, RingBuffer.write, hc]
        omega
  | read =>
      cases hg : b.contents.getD b.read_index none with
      | none =>
          simp only [step, RingBuffer.read, hg]
          exact ⟨hr, hw⟩
      | some t =>
          by_cases hc : b.read_index + 1 = N
          · simp only [step, RingBuffer.read, hg, if_pos hc]
            exact ⟨by omega, hw⟩
          · simp only [step, RingBuffer.read, hg, if_neg hc]
            exact ⟨by omega, hw⟩

/-- Both cursors stay below `N` across any sequence of API calls. -/
theorem run_bounds {T : Type} (N : Nat) (ops : List (Op T)) :
    ∀ b : RingBuffer T, b.read_index < N → b.write_index < N →
    (run N b ops).read_index < N ∧ (run N b ops).write_index < N := by
  induction ops with
  | nil => intro b hr hw; exact ⟨hr, hw⟩
  | cons op ops ih =>
      intro b hr hw
      have h := step_bounds N b op hr hw
      simpa [run, List.foldl] using ih (step N b op) h.1 h.2

/-- A `read` on a state whose slot at `read_index` is occupied returns
exactly that slot's value. -/
theorem read_fst {T : Type} (N : Nat) (b : RingBuffer T) (t : T)
    (h : b.contents.getD b.read_index none = some t) :
    (RingBuffer.read N b).1 = some t := by
  by_cases hc : b.read_index + 1 = N
  · simp only [RingBuffer.read, h, if_pos hc]
  · simp only [RingBuffer.read, h, if_neg hc]

theorem list_getD_set_eq {α : Type} (l : List α) (j : Nat) (x d : α)
    (h : j < l.length) : (l.set j x).getD j d = x := by
  induction l generalizing j with
  | nil => simp at h
  | cons a l ih =>
      cases j with
      | zero => rfl
      | succ j => exact ih j (by simpa using h)

/-- C1: on a capacity-3 buffer, write 1..6, then one read; the further
read returns `some 5`, leaving slots `[none, none, some 6]`,
`read_index = 2`, `write_index = 0`. -/
theorem claim_C1 :
    (RingBuffer.read 3
      (RingBuffer.read 3 (writeList 3 (RingBuffer.fresh Nat 3)
        [1, 2, 3, 4, 5, 6])).2).1 = some 5 ∧
    (RingBuffer.read 3
      (RingBuffer.read 3 (writeList 3 (RingBuffer.fresh Nat 3)
        [1, 2, 3, 4, 5, 6])).2).2 =
      ⟨[none, none, some 6], 2, 0⟩ := by
  decide

/-- C2: after `N` consecutive writes on a fresh buffer the two cursors
coincide and every slot is occupied; the `(N+1)`-th write lands on the
slot at `read_index` itself, and the next `read` returns that newest
value (the value previously stored there is gone, the slot now holding
the new value). -/
theorem claim_C2 (T : Type) (N : Nat) (hN : 0 < N) (vs : List T)
    (hlen : vs.length = N) (v : T) :
    (writeList N (RingBuffer.fresh T N) vs).write_index
      = (writeList N (RingBuffer.fresh T N) vs).read_index ∧
    (writeList N (RingBuffer.fresh T N) vs).contents = vs.map some ∧
    (RingBuffer.write N (writeList N (RingBuffer.fresh T N) vs) v).contents.getD
      (writeList N (RingBuffer.fresh T N) vs).read_index none = some v ∧
    (RingBuffer.read N
      (RingBuffer.write N (writeList N (RingBuffer.fresh T N) vs) v)).1
      = some v := by
  have hfill := writeList_fill N vs [] 0 (by simpa using hN) (by simp [hlen])
  simp only [List.map_nil, List.nil_append, List.length_nil, Nat.sub_zero,
    Nat.zero_add, hlen, Nat.sub_self, List.replicate_zero, List.append_nil,
    eq_self_iff_true, if_true] at hfill
  have hB : writeList N (RingBuffer.fresh T N) vs = ⟨vs.map some, 0, 0⟩ := hfill
  obtain ⟨w, vs', rfl⟩ : ∃ w vs', vs = w :: vs' := by
    cases vs with
    | nil => simp at hlen; omega
    | cons w vs' => exact ⟨w, vs', rfl⟩
  rw [hB]
  refine ⟨rfl, rfl, ?_, ?_⟩
  · rw [write_contents]
    simp [List.set]
  · apply read_fst
    rw [write_read_index, write_contents]
    simp [List.set]

theorem claim_C2_witness :
    0 < 2 ∧ ([10, 20] : List Nat).length = 2 ∧
    ((writeList 2 (RingBuffer.fresh Nat 2) [10, 20]).write_index
        = (writeList 2 (RingBuffer.fresh Nat 2) [10, 20]).read_index ∧
     (writeList 2 (RingBuffer.fresh Nat 2) [10, 20]).contents
        = ([10, 20] : List Nat).map some ∧
     (RingBuffer.write 2 (writeList 2 (RingBuffer.fresh Nat 2) [10, 20])
        30).contents.getD
       (writeList 2 (RingBuffer.fresh Nat 2) [10, 20]).read_index none = some 30 ∧
     (RingBuffer.read 2
       (RingBuffer.write 2 (writeList 2 (RingBuffer.fresh Nat 2) [10, 20]) 30)).1
       = some 30) :=
  ⟨by decide, by decide, claim_C2 Nat 2 (by decide) [10, 20] (by decide) 30⟩

/-- C3: FIFO within capacity — writing `k ≤ N` values into a fresh
buffer and reading `k` times yields exactly those values in order, and
the `(k+1)`-th read returns `none`. -/
theorem claim_C3 (T : Type) (N : Nat) (hN : 0 < N) (vs : List T)
    (hk : vs.length ≤ N) :
    (readN N (writeList N (RingBuffer.fresh T N) vs) vs.length).1 = vs.map some ∧
    (RingBuffer.read N
      (readN N (writeList N (RingBuffer.fresh T N) vs) vs.length).2).1 = none := by
  have hfill := writeList_fill N vs [] 0 (by simpa using hN) (by simpa using hk)
  simp only [List.map_nil, List.nil_append, List.length_nil, Nat.sub_zero,
    Nat.zero_add] at hfill
  have hB : writeList N (RingBuffer.fresh T N) vs
      = ⟨vs.map some ++ List.replicate (N - vs.length) none, 0,
         if vs.length = N then 0 else vs.length⟩ := hfill
  have hread := readN_fill N vs 0 (N - vs.length)
      (if vs.length = N then 0 else vs.length) (by omega)
  simp only [List.replicate_zero, List.nil_append, Nat.zero_add] at hread
  rw [hB, hread]
  refine ⟨rfl, ?_⟩
  rw [read_none]
  exact list_getD_replicate N _ none

theorem claim_C3_witness :
    0 < 3 ∧ ([7, 8] : List Nat).length ≤ 3 ∧
    ((readN 3 (writeList 3 (RingBuffer.fresh Nat 3) [7, 8]) 2).1
        = ([7, 8] : List Nat).map some ∧
     (RingBuffer.read 3
       (readN 3 (writeList 3 (RingBuffer.fresh Nat 3) [7, 8]) 2).2).1 = none) :=
  ⟨by decide, by decide, claim_C3 Nat 3 (by decide) [7, 8] (by decide)⟩

/-- C4: `write` stores the value into the slot at `write_index`
(overwriting whatever was there, leaving it occupied), advances
`write_index` to `(write_index + 1) % N`, and leaves `read_index`
alone; `write` is a total function with no error outcome. -/
theorem claim_C4 (T : Type) (N : Nat) (b : RingBuffer T) (v : T)
    (hw : b.write_index < N) (hlen : b.contents.length = N) :
    (RingBuffer.write N b v).contents = b.contents.set b.write_index (some v) ∧
    (RingBuffer.write N b v).contents.getD b.write_index none = some v ∧
    (RingBuffer.write N b v).write_index = (b.write_index + 1) % N ∧
    (RingBuffer.write N b v).read_index = b.read_index := by
  refine ⟨write_contents N b v, ?_, write_write_index N b v hw,
    write_read_index N b v⟩
  rw [write_contents]
  exact list_getD_set_eq b.contents b.write_index (some v) none (by omega)

theorem claim_C4_witness :
    (⟨[some 1, none], 0, 1⟩ : RingBuffer Nat).write_index < 2 ∧
    (⟨[some 1, none], 0, 1⟩ : RingBuffer Nat).contents.length = 2 ∧
    ((RingBuffer.write 2 (⟨[some 1, none], 0, 1⟩ : RingBuffer Nat) 9).contents
        = (⟨[some 1, none], 0, 1⟩ : RingBuffer Nat).contents.set 1 (some 9) ∧
     (RingBuffer.write 2 (⟨[some 1, none], 0, 1⟩ : RingBuffer Nat)
        9).contents.getD 1 none = some 9 ∧
     (RingBuffer.write 2 (⟨[some 1, none], 0, 1⟩ : RingBuffer Nat)
        9).write_index = (1 + 1) % 2 ∧
     (RingBuffer.write 2 (⟨[some 1, none], 0, 1⟩ : RingBuffer Nat)
        9).read_index = 0) :=
  ⟨by decide, by decide,
   claim_C4 Nat 2 ⟨[some 1, none], 0, 1⟩ 9 (by decide) (by decide)⟩

/-- C5: for `N > 1`, `write(x)` then `read()` on a fresh buffer returns
`some x` and leaves the buffer fully empty with both cursors at 1. -/
theorem claim_C5 (T : Type) (N : Nat) (hN : 1 < N) (x : T) :
    RingBuffer.read N (RingBuffer.write N (RingBuffer.fresh T N) x)
      = (some x, ⟨List.replicate N none, 1, 1⟩) := by
  obtain ⟨m, rfl⟩ : ∃ m, N = m + 2 := ⟨N - 2, by omega⟩
  have hne : ¬ (0 + 1 = m + 2) := by omega
  simp [RingBuffer.fresh, RingBuffer.write, RingBuffer.read, hne,
    List.replicate_succ, List.set, List.getD]

theorem claim_C5_witness :
    1 < 3 ∧
    RingBuffer.read 3 (RingBuffer.write 3 (RingBuffer.fresh Nat 3) 42)
      = (some 42, ⟨List.replicate 3 none, 1, 1⟩) :=
  ⟨by decide, claim_C5 Nat 3 (by decide) 42⟩

/-- C6: reading a buffer whose slot at `read_index` is empty returns
`none` and leaves the whole state unchanged, and doing it again gives
the same outcome with no mutation. -/
theorem claim_C6 (T : Type) (N : Nat) (b : RingBuffer T)
    (h : b.contents.getD b.read_index none = none) :
    RingBuffer.read N b = (none, b) ∧
    RingBuffer.read N (RingBuffer.read N b).2 = (none, b) := by
  have h1 := read_none N b h
  refine ⟨h1, ?_⟩
  rw [h1]
  exact read_none N b h

theorem claim_C6_witness :
    (RingBuffer.fresh Nat 2).contents.getD
      (RingBuffer.fresh Nat 2).read_index none = none ∧
    (RingBuffer.read 2 (RingBuffer.fresh Nat 2) = (none, RingBuffer.fresh Nat 2) ∧
     RingBuffer.read 2 (RingBuffer.read 2 (RingBuffer.fresh Nat 2)).2
       = (none, RingBuffer.fresh Nat 2)) :=
  ⟨by decide, claim_C6 Nat 2 (RingBuffer.fresh Nat 2) (by decide)⟩

/-- C7: starting from a fresh buffer of capacity `N > 0`, both cursors
stay in `[0, N)` after every sequence of `write`/`read` calls. -/
theorem claim_C7 (T : Type) (N : Nat) (hN : 0 < N) (ops : List (Op T)) :
    (run N (RingBuffer.fresh T N) ops).read_index < N ∧
    (run N (RingBuffer.fresh T N) ops).write_index < N :=
  run_bounds N ops (RingBuffer.fresh T N) hN hN

theorem claim_C7_witness :
    0 < 2 ∧
    ((run 2 (RingBuffer.fresh Nat 2)
        [Op.write 1, Op.read, Op.write 2, Op.write 3]).read_index < 2 ∧
     (run 2 (RingBuffer.fresh Nat 2)
        [Op.write 1, Op.read, Op.write 2, Op.write 3]).write_index < 2) :=
  ⟨by decide,
   claim_C7 Nat 2 (by decide) [Op.write 1, Op.read, Op.write 2, Op.write 3]⟩

/-- C8: `new` with `N > 0` yields a buffer with all `N` slots empty and
both cursors at 0; `new` with `N = 0` aborts (no instance is
returned). -/
theorem claim_C8 (T : Type) (N : Nat) (hN : 0 < N) :
    RingBuffer.new T N = some ⟨List.replicate N none, 0, 0⟩ ∧
    RingBuffer.new T 0 = none := by
  constructor
  · simp [RingBuffer.new, RingBuffer.fresh, hN]
  · simp [RingBuffer.new]

theorem claim_C8_witness :
    0 < 5 ∧
    (RingBuffer.new Nat 5 = some ⟨List.replicate 5 none, 0, 0⟩ ∧
     RingBuffer.new Nat 0 = none) :=
  ⟨by decide, claim_C8 Nat 5 (by decide)⟩

/-- C9: `write` only touches the slot at the old `write_index` and the
write cursor — `read_index`, the list length, and every other slot are
unchanged. -/
theorem claim_C9 (T : Type) (N : Nat) (b : RingBuffer T) (v : T) (i : Nat)
    (hi : i ≠ b.write_index) :
    (RingBuffer.write N b v).read_index = b.read_index ∧
    (RingBuffer.write N b v).contents.getD i none = b.contents.getD i none ∧
    (RingBuffer.write N b v).contents.length = b.contents.length := by
  refine ⟨write_read_index N b v, ?_, ?_⟩
  · rw [write_contents]
    exact list_getD_set_ne b.contents b.write_index i (some v) none hi
  · rw [write_contents]
    exact List.length_set b.contents b.write_index (some v)

theorem claim_C9_witness :
    (0 : Nat) ≠ (⟨[some 1, some 2], 0, 1⟩ : RingBuffer Nat).write_index ∧
    ((RingBuffer.write 2 (⟨[some 1, some 2], 0, 1⟩ : RingBuffer Nat)
        7).read_index = 0 ∧
     (RingBuffer.write 2 (⟨[some 1, some 2], 0, 1⟩ : RingBuffer Nat)
        7).contents.getD 0 none
       = (⟨[some 1, some 2], 0, 1⟩ : RingBuffer Nat).contents.getD 0 none ∧
     (RingBuffer.write 2 (⟨[some 1, some 2], 0, 1⟩ : RingBuffer Nat)
        7).contents.length
       = (⟨[some 1, some 2], 0, 1⟩ : RingBuffer Nat).contents.length) :=
  ⟨by decide, claim_C9 Nat 2 ⟨[some 1, some 2], 0, 1⟩ 7 0 (by decide)⟩

/-- C10: capacity 1 — writing into a fresh buffer wraps `write_index`
back to 0, and the subsequent read returns the value and leaves the
single slot empty with both cursors at 0. -/
theorem claim_C10 (T : Type) (x : T) :
    (RingBuffer.write 1 (RingBuffer.fresh T 1) x).write_index = 0 ∧
    RingBuffer.read 1 (RingBuffer.write 1 (RingBuffer.fresh T 1) x)
      = (some x, ⟨[none], 0, 0⟩) :=
  ⟨rfl, rfl⟩

end SRingBuf
